import Mathlib

/-!
Verification of the Prism/ESLint marker hook (`src/unnamed/part_000`).

The source file walks a Prism token stream and, for each ESLint message
range, splits tokens and inserts an `eslint-marked` wrapper containing the
in-range text plus an `eslint-message` token.  We embed the token data
model and the three recursive procedures `getTokenContent`, `splitToken`
and `convertMarked` (the merge loop of `convertMarked`, lines 208-220, is
factored out as `mergeLoop`), plus the hook-level plumbing
(`addContentMustBeMarked`, the `after-tokenize` callback, `messageRanges`).

JavaScript specifics that are modelled explicitly:
* A Prism token is either a raw string, a `Prism.Token` whose `content` is
  a string, or a `Prism.Token` whose `content` is an array of tokens.
  These are the three shapes the source distinguishes with
  `typeof token === "string"` and `typeof token.content !== "string"`.
* `Prism.Token`'s constructor sets `this.length = (matchedStr || '').length | 0`;
  every `new Prism.Token(...)` call in the source omits `matchedStr`, so
  tokens built by the hook carry `length = 0`.  Tokens produced by Prism's
  own tokenizer carry the length of the matched text.  The `length` field
  is stored in the `len` argument of the `toks`/`tokl` constructors.
* `String.prototype.slice` clamps its arguments (`jsSlice`).
* `while ((token = buffer.shift()))` stops as soon as `shift` returns a
  falsy value: `undefined` (empty buffer) or the empty string `""`.
* Line 219 reads `getTokenContent(nextToken)` after `splitToken` may have
  replaced `nextToken.content` in place (line 148); `mergeLoop` therefore
  measures the post-split token for list-content tokens.
-/

/-- A Prism token (string leaf, `Prism.Token` with string content, or
`Prism.Token` with an array of child tokens).  Fields of `toks`/`tokl`:
type, content, alias list, and the constructor-stored `length`. -/
inductive PToken : Type where
  | str : List Char → PToken
  | toks : String → List Char → List String → Nat → PToken
  | tokl : String → List PToken → List String → Nat → PToken
deriving Repr

mutual

/-- `getTokenContent` (part_000 lines 117-128): text of a token, with
`eslint-message` tokens contributing the empty string. -/
def getTokenContent : PToken → List Char
  | .str s => s
  | .toks ty s _ _ => if ty = "eslint-message" then [] else s
  | .tokl ty ts _ _ => if ty = "eslint-message" then [] else getListContent ts

/-- Concatenated `getTokenContent` over a token list (the `.map(...).join("")`
of line 127, and the flattening used throughout). -/
def getListContent : List PToken → List Char
  | [] => []
  | t :: ts => getTokenContent t ++ getListContent ts
end

/-- `token.length`: native length for raw strings, the constructor-stored
`length` field for `Prism.Token` objects. -/
def tokenLength : PToken → Int
  | .str s => s.length
  | .toks _ _ _ len => len
  | .tokl _ _ _ len => len

/-- JavaScript `String.prototype.slice` on a list of characters:
negative indices count from the end, and both indices are clamped. -/
def jsSlice (s : List Char) (a b : Int) : List Char :=
  let len : Int := s.length
  let lo := if a < 0 then max (len + a) 0 else min a len
  let hi := if b < 0 then max (len + b) 0 else min b len
  (s.take hi.toNat).drop lo.toNat

/-- A JS value is falsy in `while ((token = buffer.shift()))` exactly when
it is the empty string (token objects are always truthy). -/
def falsyTok : PToken → Bool
  | .str [] => true
  | _ => false

/-- Result record of `splitToken` (lines 139-172). -/
structure SplitResult where
  before : Option PToken
  marked : PToken
  after : Option PToken

/-- `result.marked.content.pop()` (line 213): drop the last element of a
token's content array.  Only reached for tokens with list content; on any
other shape JavaScript would throw, and those shapes are unreachable here. -/
def popLastContent : PToken → PToken
  | .tokl ty ts al len => .tokl ty ts.dropLast al len
  | t => t

/-- The content array of a token with list content (used to spread
`...next.marked.content` on line 215). -/
def contentListOf : PToken → List PToken
  | .tokl _ ts _ _ => ts
  | _ => []

/-- `result.marked.content.push(...next.marked.content)` (line 215). -/
def pushContentOf : PToken → PToken → PToken
  | .tokl ty ts al len, next => .tokl ty (ts ++ contentListOf next) al len
  | t, _ => t

/-- `if (next.after) result.after = next.after` (line 216). -/
def afterUpdate (a b : Option PToken) : Option PToken :=
  match a with
  | some x => some x
  | none => b

/-- The advance of `nextTokenStartIndex` (line 219):
`getTokenContent(nextToken).length`, where for a list-content token
`nextToken.content` has already been replaced in place by `splitToken`
(line 148), i.e. the advance measures the post-split token. -/
def mergeStep (nt : PToken) (next : SplitResult) : Nat :=
  match nt with
  | .tokl _ _ _ _ => (getTokenContent next.marked).length
  | _ => (getTokenContent nt).length

mutual

/-- `splitToken` (lines 139-172): split `token` at `range`, producing the
fragment before the range, the `eslint-marked` wrapper, and the fragment
after the range.  For a token whose content is an array, the split recurses
into the children (line 148) and the token itself is returned as `marked`. -/
def splitToken (token : PToken) (range : Int × Int) (message : List Char)
    (tokenStart : Int) : SplitResult :=
  match token with
  | .tokl ty ts al len =>
      ⟨none, .tokl ty (convertMarked ts range message tokenStart) al len, none⟩
  | .str s =>
      splitStringLike (.str) (.str s) range message tokenStart
  | .toks ty s al len =>
      splitStringLike (fun nc => .toks ty nc al 0) (.toks ty s al len) range
        message tokenStart

/-- The string-content part of `splitToken` (lines 152-171); `build` is the
source's `buildToken`. -/
def splitStringLike (build : List Char → PToken) (token : PToken)
    (range : Int × Int) (message : List Char)
    (tokenStart : Int) : SplitResult :=
  let content := getTokenContent token
  let before := if tokenStart < range.1 then
    some (build (jsSlice content 0 (range.1 - tokenStart))) else none
  let mark := jsSlice content
    (if tokenStart < range.1 then range.1 - tokenStart else 0)
    (range.2 - tokenStart)
  let marked := PToken.tokl "eslint-marked"
    [build mark, PToken.toks "eslint-message" message ["alert"] 0]
    (if mark = ['\n'] ∧ range.1 + 1 = range.2 then ["eslint-marked-line-feed"]
      else []) 0
  let after := if range.2 - tokenStart < tokenLength token then
    some (build (jsSlice content (range.2 - tokenStart) content.length))
    else none
  ⟨before, marked, after⟩

/-- The merge loop of `convertMarked` (lines 206-220): while the range
extends past the tokens consumed so far, shift the next token, split it,
pop the trailing message token off the wrapper and append the new pieces.
Returns the final wrapper, the final `after` fragment and the remaining
buffer. -/
def mergeLoop (marked : PToken) (after : Option PToken) (buffer : List PToken)
    (range : Int × Int) (message : List Char) (idx : Int) :
    PToken × Option PToken × List PToken :=
  match buffer with
  | [] => (marked, after, [])
  | nt :: rest =>
    if idx < range.2 then
      let next := splitToken nt range message idx
      mergeLoop (pushContentOf (popLastContent marked) next.marked)
        (afterUpdate next.after after) rest range message
        (idx + mergeStep nt next)
    else (marked, after, nt :: rest)

/-- `convertMarked` (lines 183-230): walk the token list, pass through
tokens before the range, split the entry token, run the merge loop, then
yield the wrapper, the trailing fragment and the untouched remainder.
An empty-string leaf makes `while ((token = buffer.shift()))` stop, ending
the generator. -/
def convertMarked (tokens : List PToken) (range : Int × Int)
    (message : List Char) (tokenStart : Int) : List PToken :=
  match tokens with
  | [] => []
  | t :: buffer =>
    if falsyTok t then []
    else
      let content := getTokenContent t
      let e : Int := tokenStart + content.length
      if content = [] ∨ e ≤ range.1 then
        t :: convertMarked buffer range message e
      else
        let result := splitToken t range message tokenStart
        let merged := mergeLoop result.marked result.after buffer range message e
        result.before.toList ++ merged.1 :: (merged.2.1.toList ++ merged.2.2)

end

mutual

/-- Number of nodes anywhere in a token for which the type/alias test `f`
holds (used to count wrapper, message, and tagged nodes). -/
def countNodes (f : String → List String → Bool) : PToken → Nat
  | .str _ => 0
  | .toks ty _ al _ => if f ty al then 1 else 0
  | .tokl ty ts al _ => (if f ty al then 1 else 0) + countNodesList f ts

/-- `countNodes` summed over a token list. -/
def countNodesList (f : String → List String → Bool) : List PToken → Nat
  | [] => 0
  | t :: ts => countNodes f t + countNodesList f ts

end

/-- Test for a WrapperNode (`eslint-marked` type, part_000 line 158). -/
def isMarkedTok (ty : String) (_ : List String) : Bool := ty == "eslint-marked"

/-- Test for a MessageNode (`eslint-message` type, line 163). -/
def isMessageTok (ty : String) (_ : List String) : Bool := ty == "eslint-message"

/-- Test for the line-break marker tag (`eslint-marked-line-feed`, line 166). -/
def isTaggedTok (_ : String) (al : List String) : Bool :=
  al.contains "eslint-marked-line-feed"

mutual

/-- A token stream as the external tokenizer delivers it: no empty string
leaves, and none of the hook's reserved `eslint-marked` type or
`eslint-marked-line-feed` tag already present. -/
def cleanTok : PToken → Bool
  | .str s => !s.isEmpty
  | .toks ty _ al _ =>
      (ty != "eslint-marked") && !(al.contains "eslint-marked-line-feed")
  | .tokl ty ts al _ =>
      (ty != "eslint-marked") && !(al.contains "eslint-marked-line-feed")
        && cleanList ts

/-- `cleanTok` over a token list. -/
def cleanList : List PToken → Bool
  | [] => true
  | t :: ts => cleanTok t && cleanList ts

end

/-! ## Hook-level plumbing (lines 14-110, 232-235)

The `Linter`, the tokenizer and `docsExampleCodeToParsableCode` are external
collaborators; the `after-tokenize` callback is therefore modelled as a
function of the module state, the environment (`env.code`, `env.tokens`) and
the message list the linter returns for this code. -/

/-- Modelled from the spec: parser options are a free-form key/value
configuration record (the `ParserOptions` type lives outside `src/`). -/
abbrev ParserOptions := List (String × String)

/-- An ESLint message as consumed by the hook (lines 87-110); `endLoc`
bundles `endLine`/`endColumn`, which ESLint supplies together. -/
structure LintMessage where
  message : List Char
  line : Nat
  column : Nat
  endLoc : Option (Nat × Nat)
  fatal : Bool

/-- Modelled from the spec: `createGlobalLinebreakMatcher` comes from
`lib/shared/ast-utils` which is not under `src/`; per the spec a line break
is CRLF counted as one break, or a single CR, LF, LS or PS character. -/
def isLineBreakChar (c : Char) : Bool :=
  c = '\n' || c = '\r' || c = Char.ofNat 0x2028 || c = Char.ofNat 0x2029

/-- The scan of lines 53-59 (without the initial `0` entry): offsets just
after each line break. -/
def lineBreakEnds : List Char → Nat → List Nat
  | [], _ => []
  | '\r' :: '\n' :: rest, i => (i + 2) :: lineBreakEnds rest (i + 2)
  | c :: rest, i =>
      if isLineBreakChar c then (i + 1) :: lineBreakEnds rest (i + 1)
      else lineBreakEnds rest (i + 1)

/-- `lineStartIndices` (lines 52-59). -/
def computeLineStarts (code : List Char) : List Nat :=
  0 :: lineBreakEnds code 0

/-- `getIndexFromLoc` (lines 69-74): `lineStartIndices[line-1] + column - 1`
for ESLint's 1-indexed line/column pairs. -/
def getIndexFromLoc (lineStarts : List Nat) (line column : Nat) : Nat :=
  lineStarts.getD (line - 1) 0 + column - 1

/-- `messageRanges` (lines 92-110): one `{message, range}` pair per linter
message, with `start + 1` as the end when no end location is given. -/
def messageRanges (code : List Char) (msgs : List LintMessage) :
    List (List Char × (Int × Int)) :=
  let lineStarts := computeLineStarts code
  msgs.map fun msg =>
    let start : Int := getIndexFromLoc lineStarts msg.line msg.column
    (msg.message,
      (start,
        match msg.endLoc with
        | none => start + 1
        | some (el, ec) => (getIndexFromLoc lineStarts el ec : Int)))

/-- The module-level mutable state (lines 14-20). -/
structure HookState where
  contentMustBeMarked : Option (List Char)
  contentParserOptions : Option ParserOptions

/-- `addContentMustBeMarked` (lines 28-31). -/
def addContentMustBeMarked (content : List Char) (options : ParserOptions) :
    HookState :=
  ⟨some content, some options⟩

/-- The `after-tokenize` callback (lines 40-235), parameterized by the
message list the (external) linter returns: ignore unregistered content,
clear the registration, bail out on any fatal message, otherwise apply
`convertMarked` once per message range. -/
def afterTokenize (st : HookState) (envCode : List Char)
    (envTokens : List PToken) (msgs : List LintMessage) :
    HookState × List PToken :=
  if st.contentMustBeMarked ≠ some envCode then (st, envTokens)
  else
    let cleared : HookState := ⟨none, st.contentParserOptions⟩
    if msgs.any (·.fatal) then (cleared, envTokens)
    else
      (cleared,
        (messageRanges envCode msgs).foldl
          (fun toks pr => convertMarked toks pr.2 pr.1 0) envTokens)

/-- Tokens that are not list-content tokens (raw strings and string-content
`Prism.Token`s). -/
def stringLike : PToken → Bool
  | .tokl _ _ _ _ => false
  | _ => true

/-! ## Claim theorems -/

/-- Unfolding set for evaluating the splitter on concrete inputs. -/
theorem convertMarked_nil (r : Int × Int) (m : List Char) (st : Int) :
    convertMarked [] r m st = [] := by
  rw [convertMarked]

/-- Pass-through equation of `convertMarked` (lines 194-198): a truthy
token that is empty or ends at or before `range[0]` is yielded unchanged. -/
theorem convertMarked_cons_pass (t : PToken) (buffer : List PToken)
    (r : Int × Int) (m : List Char) (st : Int) (hf : falsyTok t = false)
    (hc : getTokenContent t = [] ∨
      st + ((getTokenContent t).length : Int) ≤ r.1) :
    convertMarked (t :: buffer) r m st =
      t :: convertMarked buffer r m (st + (getTokenContent t).length) := by
  rw [convertMarked]
  simp only [hf, Bool.false_eq_true, if_false, if_pos hc]

/-- Entry equation of `convertMarked` (lines 200-228): the first truthy,
non-empty token overlapping the range is split and the merge loop runs on
the remaining buffer. -/
theorem convertMarked_cons_entry (t : PToken) (buffer : List PToken)
    (r : Int × Int) (m : List Char) (st : Int) (hf : falsyTok t = false)
    (hc : ¬(getTokenContent t = [] ∨
      st + ((getTokenContent t).length : Int) ≤ r.1)) :
    convertMarked (t :: buffer) r m st =
      (splitToken t r m st).before.toList ++
        (mergeLoop (splitToken t r m st).marked (splitToken t r m st).after
            buffer r m (st + (getTokenContent t).length)).1 ::
          ((mergeLoop (splitToken t r m st).marked (splitToken t r m st).after
              buffer r m (st + (getTokenContent t).length)).2.1.toList ++
            (mergeLoop (splitToken t r m st).marked (splitToken t r m st).after
              buffer r m (st + (getTokenContent t).length)).2.2) := by
  rw [convertMarked]
  simp only [hf, Bool.false_eq_true, if_false, if_neg hc]

/-- The merge loop does nothing once the cursor has reached `range[1]`. -/
theorem mergeLoop_stop (marked : PToken) (after : Option PToken)
    (buffer : List PToken) (r : Int × Int) (m : List Char) (idx : Int)
    (h : r.2 ≤ idx) :
    mergeLoop marked after buffer r m idx = (marked, after, buffer) := by
  cases buffer with
  | nil => rw [mergeLoop]
  | cons nt rest => rw [mergeLoop, if_neg (by omega)]

/-- One consuming step of the merge loop (lines 208-220). -/
theorem mergeLoop_consume (marked : PToken) (after : Option PToken)
    (nt : PToken) (rest : List PToken) (r : Int × Int) (m : List Char)
    (idx : Int) (h : idx < r.2) :
    mergeLoop marked after (nt :: rest) r m idx =
      mergeLoop
        (pushContentOf (popLastContent marked) (splitToken nt r m idx).marked)
        (afterUpdate (splitToken nt r m idx).after after) rest r m
        (idx + mergeStep nt (splitToken nt r m idx)) := by
  rw [mergeLoop]
  simp only [if_pos h]

/-- For a string-like token the merge loop advances by the token's own
content length. -/
theorem mergeStep_stringLike {nt : PToken} (h : stringLike nt = true)
    (next : SplitResult) : mergeStep nt next = (getTokenContent nt).length := by
  cases nt with
  | str s => rfl
  | toks ty s al len => rfl
  | tokl ty ts al len => simp [stringLike] at h

/-- The merge loop never consumes a token whose start offset is at or past
`range[1]`: whatever buffer suffix begins at such an offset is returned
verbatim (possibly together with some unconsumed part of `mid`). -/
theorem mergeLoop_suffix (mid : List PToken) :
    ∀ (marked : PToken) (after : Option PToken) (rest2 : List PToken)
      (r : Int × Int) (m : List Char) (idx : Int),
      (∀ t ∈ mid, stringLike t = true) →
      r.2 ≤ idx + ((getListContent mid).length : Int) →
      ∃ mk af c, mergeLoop marked after (mid ++ rest2) r m idx =
        (mk, af, c ++ rest2) := by
  induction mid with
  | nil =>
    intro marked after rest2 r m idx _ h
    refine ⟨marked, after, [], ?_⟩
    rw [List.nil_append]
    exact mergeLoop_stop _ _ _ _ _ _ (by simpa [getListContent] using h)
  | cons c0 mid ih =>
    intro marked after rest2 r m idx hsl h
    by_cases hc : idx < r.2
    · rw [List.cons_append, mergeLoop_consume _ _ _ _ _ _ _ hc,
        mergeStep_stringLike (hsl c0 (by simp))]
      refine ih _ _ rest2 r m _ (fun u hu => hsl u (by simp [hu])) ?_
      have : ((getListContent (c0 :: mid)).length : Int) =
          (getTokenContent c0).length + (getListContent mid).length := by
        simp [getListContent]
      omega
    · refine ⟨marked, after, c0 :: mid, ?_⟩
      rw [List.cons_append, mergeLoop_stop _ _ _ _ _ _ (by omega)]

/-- A non-empty-string token is truthy. -/
theorem falsyTok_eq_false {t : PToken} (h : t ≠ PToken.str []) :
    falsyTok t = false := by
  cases t with
  | str s => cases s with
    | nil => exact absurd rfl h
    | cons c cs => rfl
  | toks ty s al len => rfl
  | tokl ty ts al len => rfl

/-- `getListContent` distributes over append. -/
theorem getListContent_append (a b : List PToken) :
    getListContent (a ++ b) = getListContent a ++ getListContent b := by
  induction a with
  | nil => simp [getListContent]
  | cons t a ih => simp [getListContent, ih]

/-- Tokens that end at or before `range.1` are passed through unchanged
(the `end <= range[0]` branch of lines 194-198), leaving the walk to
continue on the remainder at the advanced cursor. -/
theorem convertMarked_passes_front (pre : List PToken) :
    ∀ (rest : List PToken) (r : Int × Int) (m : List Char) (start : Int),
      (∀ t ∈ pre, t ≠ PToken.str []) →
      start + ((getListContent pre).length : Int) ≤ r.1 →
      convertMarked (pre ++ rest) r m start =
        pre ++ convertMarked rest r m (start + (getListContent pre).length) := by
  induction pre with
  | nil => intro rest r m start _ _; simp [getListContent]
  | cons t pre ih =>
    intro rest r m start hne hle
    have hft : falsyTok t = false := falsyTok_eq_false (hne t (by simp))
    have hlen : ((getListContent (t :: pre)).length : Int) =
        (getTokenContent t).length + (getListContent pre).length := by
      simp [getListContent]
    have hend : start + ((getTokenContent t).length : Int) ≤ r.1 := by
      have h0 : (0 : Int) ≤ (getListContent pre).length := by positivity
      omega
    rw [List.cons_append, convertMarked]
    simp only [hft, Bool.false_eq_true, if_false, if_pos (Or.inr hend)]
    rw [ih rest r m (start + (getTokenContent t).length)
      (fun u hu => hne u (by simp [hu]))
      (by rw [hlen] at hle; omega)]
    rw [hlen, ← add_assoc]
    simp

/-- `jsSlice` with non-negative in-range-or-clamped Nat indices is
`take`/`drop`. -/
theorem jsSlice_natCast (s : List Char) (a b : Nat) :
    jsSlice s (a : Int) (b : Int) = (s.take b).drop a := by
  simp only [jsSlice]
  rw [if_neg (by omega), if_neg (by omega)]
  have hma : (min (a : Int) (s.length : Int)).toNat = min a s.length := by omega
  have hmb : (min (b : Int) (s.length : Int)).toNat = min b s.length := by omega
  rw [hma, hmb]
  rcases le_or_lt b s.length with hb | hb
  · rw [min_eq_left hb]
    rcases le_or_lt a s.length with ha | ha
    · rw [min_eq_left ha]
    · have h1 : (s.take b).length ≤ s.length := by simp
      have h2 : (s.take b).length ≤ a := by
        rw [List.length_take]; omega
      rw [min_eq_right (le_of_lt ha), List.drop_eq_nil_of_le h1,
        List.drop_eq_nil_of_le h2]
  · rw [min_eq_right (le_of_lt hb), List.take_length,
      List.take_of_length_le (le_of_lt hb)]
    rcases le_or_lt a s.length with ha | ha
    · rw [min_eq_left ha]
    · rw [min_eq_right (le_of_lt ha),
        List.drop_eq_nil_of_le (le_refl _),
        List.drop_eq_nil_of_le (le_of_lt ha)]

/-- `jsSlice` from a Nat index to the end of the string is `drop`. -/
theorem jsSlice_to_length (s : List Char) (a : Nat) :
    jsSlice s (a : Int) (s.length : Int) = s.drop a := by
  rw [jsSlice_natCast, List.take_length]

/-- The output suffix after an applied range: whatever tokens start at or
past `range[1]` come out of `convertMarked` verbatim, after the wrapper,
provided the nodes the range spans before them are string-like. -/
theorem convertMarked_tail_preserved
    (pre : List PToken) (s : List Char) (mid : List PToken) (n : PToken)
    (tail : List PToken) (r : Int × Int) (m : List Char)
    (hpre : ∀ t ∈ pre, t ≠ PToken.str [])
    (hple : ((getListContent pre).length : Int) ≤ r.1)
    (hs : s ≠ [])
    (hentry : r.1 < (getListContent pre).length + (s.length : Int))
    (hmid : ∀ t ∈ mid, stringLike t = true)
    (hend : r.2 ≤ ((getListContent pre).length : Int) + s.length +
      (getListContent mid).length) :
    ∃ mid2, convertMarked (pre ++ PToken.str s :: (mid ++ n :: tail)) r m 0 =
      pre ++ (mid2 ++ n :: tail) := by
  rw [convertMarked_passes_front pre _ r m 0 hpre (by omega)]
  have hf : falsyTok (PToken.str s) = false := by
    cases s with
    | nil => exact absurd rfl hs
    | cons c cs => rfl
  have hcon : getTokenContent (PToken.str s) = s := rfl
  rw [convertMarked_cons_entry _ _ _ _ _ hf
    (by rw [hcon]; push_neg; exact ⟨hs, by omega⟩)]
  obtain ⟨mk, af, c, hml⟩ :=
    mergeLoop_suffix mid
      (splitToken (PToken.str s) r m (0 + ((getListContent pre).length : Int))).marked
      (splitToken (PToken.str s) r m (0 + ((getListContent pre).length : Int))).after
      (n :: tail) r m
      ((0 + ((getListContent pre).length : Int)) +
        ((getTokenContent (PToken.str s)).length : Int))
      hmid (by rw [hcon]; omega)
  rw [hml]
  exact ⟨(splitToken (PToken.str s) r m
      (0 + ((getListContent pre).length : Int))).before.toList ++
    mk :: (af.toList ++ c), by simp⟩

/-- Applying a range `[st+aa, st+bb)` that starts inside a single string
leaf at cursor `st`: the exact before/wrapper/after decomposition of
`splitToken` (lines 154-171). -/
theorem convertMarked_single_leaf (s : List Char) (st : Int) (aa bb : Nat)
    (r : Int × Int) (m : List Char) (hr1 : r.1 = st + (aa : Int))
    (hr2 : r.2 = st + (bb : Int)) (h1 : aa < bb) (h2 : aa < s.length) :
    convertMarked [PToken.str s] r m st =
      (if 0 < aa then [PToken.str (s.take aa)] else []) ++
        PToken.tokl "eslint-marked"
          [PToken.str ((s.take bb).drop aa),
            PToken.toks "eslint-message" m ["alert"] 0]
          (if (s.take bb).drop aa = ['\n'] ∧ aa + 1 = bb then
            ["eslint-marked-line-feed"] else []) 0 ::
        (if bb < s.length then [PToken.str (s.drop bb)] else []) := by
  have hf : falsyTok (PToken.str s) = false := by
    cases s with
    | nil => simp at h2
    | cons c cs => rfl
  have hcon : getTokenContent (PToken.str s) = s := rfl
  rw [convertMarked_cons_entry _ _ _ _ _ hf ?hc]
  case hc =>
    rw [hcon, hr1]
    push_neg
    constructor
    · intro h
      rw [h] at h2
      simp at h2
    · omega
  rw [mergeLoop]
  simp only [splitToken, splitStringLike, hcon, tokenLength, hr1, hr2]
  have e1 : st + (aa : Int) - st = (aa : Int) := by ring
  have e2 : st + (bb : Int) - st = (bb : Int) := by ring
  simp only [e1, e2]
  have e3 : (if st < st + (aa : Int) then (aa : Int) else 0) = (aa : Int) := by
    split <;> omega
  have e4 : (st < st + (aa : Int)) ↔ 0 < aa := by omega
  have e5 : (st + (aa : Int) + 1 = st + (bb : Int)) ↔ aa + 1 = bb := by omega
  have e6 : jsSlice s 0 (aa : Int) = s.take aa := by
    have h := jsSlice_natCast s 0 aa
    simpa using h
  have e7 : jsSlice s 0 (bb : Int) = s.take bb := by
    have h := jsSlice_natCast s 0 bb
    simpa using h
  simp only [e3, e4, e5, e6, jsSlice_natCast, jsSlice_to_length, Nat.cast_lt]
  by_cases h0 : 0 < aa <;> by_cases hb : bb < s.length <;>
    simp [h0, hb, jsSlice_natCast, jsSlice_to_length, e6, e7] <;>
    (have haa : aa = 0 := by omega
     subst haa
     simp)

/-- Two adjacent ranges `[a,b)` and `[b,c)` applied in ascending order to a
single string leaf: the wrapper of the first range ends exactly at `b` and
is passed through untouched by the second application, which wraps
`s[b:c]` in its own wrapper with its own message. -/
theorem two_adjacent_ranges_leaf (s : List Char) (a b c : Nat)
    (m1 m2 : List Char) (hab : a < b) (hbc : b < c) (hcs : c ≤ s.length) :
    convertMarked (convertMarked [PToken.str s] ((a : Int), (b : Int)) m1 0)
        ((b : Int), (c : Int)) m2 0 =
      (if 0 < a then [PToken.str (s.take a)] else []) ++
        PToken.tokl "eslint-marked"
          [PToken.str ((s.take b).drop a),
            PToken.toks "eslint-message" m1 ["alert"] 0]
          (if (s.take b).drop a = ['\n'] ∧ a + 1 = b then
            ["eslint-marked-line-feed"] else []) 0 ::
        PToken.tokl "eslint-marked"
          [PToken.str ((s.take c).drop b),
            PToken.toks "eslint-message" m2 ["alert"] 0]
          (if (s.take c).drop b = ['\n'] ∧ b + 1 = c then
            ["eslint-marked-line-feed"] else []) 0 ::
        (if c < s.length then [PToken.str (s.drop c)] else []) := by
  rw [convertMarked_single_leaf s 0 a b _ m1 (by simp) (by simp) hab
    (by omega), if_pos (show b < s.length by omega)]
  rw [show (if 0 < a then [PToken.str (s.take a)] else []) ++
        PToken.tokl "eslint-marked"
          [PToken.str ((s.take b).drop a),
            PToken.toks "eslint-message" m1 ["alert"] 0]
          (if (s.take b).drop a = ['\n'] ∧ a + 1 = b then
            ["eslint-marked-line-feed"] else []) 0 ::
          [PToken.str (s.drop b)] =
      ((if 0 < a then [PToken.str (s.take a)] else []) ++
        [PToken.tokl "eslint-marked"
          [PToken.str ((s.take b).drop a),
            PToken.toks "eslint-message" m1 ["alert"] 0]
          (if (s.take b).drop a = ['\n'] ∧ a + 1 = b then
            ["eslint-marked-line-feed"] else []) 0]) ++
        [PToken.str (s.drop b)] from by simp]
  have hflat : getListContent
      ((if 0 < a then [PToken.str (s.take a)] else []) ++
        [PToken.tokl "eslint-marked"
          [PToken.str ((s.take b).drop a),
            PToken.toks "eslint-message" m1 ["alert"] 0]
          (if (s.take b).drop a = ['\n'] ∧ a + 1 = b then
            ["eslint-marked-line-feed"] else []) 0]) = s.take b := by
    rw [getListContent_append]
    by_cases h0 : 0 < a
    · rw [if_pos h0]
      simp only [getListContent, getTokenContent]
      simp only [if_neg (by decide : ¬("eslint-marked" : String) = "eslint-message"),
        if_pos (rfl : ("eslint-message" : String) = "eslint-message")]
      rw [show s.take a = (s.take b).take a from by
        rw [List.take_take, min_eq_left (by omega)]]
      simp [List.take_append_drop]
    · rw [if_neg h0]
      have ha : a = 0 := by omega
      subst ha
      simp only [getListContent, getTokenContent]
      simp only [if_neg (by decide : ¬("eslint-marked" : String) = "eslint-message"),
        if_pos (rfl : ("eslint-message" : String) = "eslint-message")]
      simp
  rw [convertMarked_passes_front _ _ ((b : Int), (c : Int)) m2 0 ?hne ?hle]
  case hne =>
    intro t ht
    rcases List.mem_append.mp ht with h | h
    · by_cases h0 : 0 < a
      · rw [if_pos h0] at h
        rcases List.mem_singleton.mp h with rfl
        intro hcontra
        have hlist : s.take a = [] := by injection hcontra
        have : (s.take a).length = 0 := by rw [hlist]; rfl
        rw [List.length_take] at this
        omega
      · rw [if_neg h0] at h
        simp at h
    · rcases List.mem_singleton.mp h with rfl
      intro hcontra
      exact PToken.noConfusion hcontra
  case hle =>
    rw [hflat, List.length_take]
    simp only []
    omega
  rw [show (0 : Int) + ((getListContent
      ((if 0 < a then [PToken.str (s.take a)] else []) ++
        [PToken.tokl "eslint-marked"
          [PToken.str ((s.take b).drop a),
            PToken.toks "eslint-message" m1 ["alert"] 0]
          (if (s.take b).drop a = ['\n'] ∧ a + 1 = b then
            ["eslint-marked-line-feed"] else []) 0])).length : Int) = (b : Int)
    from by rw [hflat, List.length_take]; simp; omega]
  rw [convertMarked_single_leaf (s.drop b) (b : Int) 0 (c - b) _ m2
    (by simp) (show ((b : Int), (c : Int)).2 = (b : Int) + ((c - b : Nat) : Int)
      from by show (c : Int) = (b : Int) + ((c - b : Nat) : Int); omega)
    (by omega) (by rw [List.length_drop]; omega)]
  simp only [lt_self_iff_false, if_false, List.nil_append, List.drop_zero]
  rw [show (s.drop b).take (c - b) = (s.take c).drop b from by
    rw [List.drop_take]]
  rw [show (s.drop b).drop (c - b) = s.drop c from by
    rw [List.drop_drop]; congr 1; omega]
  simp only [show ((0 : Nat) + 1 = c - b) ↔ (b + 1 = c) from by omega,
    show (c - b < (s.drop b).length) ↔ (c < s.length) from by
      rw [List.length_drop]; omega]
  simp

/-- C5 counterexample: the claim asserts that two adjacent ranges applied
in ascending order to the same tree always produce two separate
WrapperNodes.  On the tree `[Token("t", ["ab"]), "cd"]` with adjacent
ranges `[1,3)` and `[3,4)` the output contains no WrapperNode at all (the
first application hits the composite-entry merge bug, the second finds
nothing left to wrap). -/
theorem c5_cex_adjacent_ranges_no_wrappers :
    countNodesList isMarkedTok
        (convertMarked
          (convertMarked
            [PToken.tokl "t" [PToken.str ['a', 'b']] [] 2,
              PToken.str ['c', 'd']] (1, 3) ['1'] 0)
          (3, 4) ['2'] 0) = 0 := by
  simp [convertMarked, splitToken, splitStringLike, mergeLoop,
    popLastContent, pushContentOf, contentListOf, afterUpdate, mergeStep,
    falsyTok, getTokenContent, getListContent, jsSlice, tokenLength,
    countNodes, countNodesList, isMarkedTok]

/-- C5 (amended): (i) a node ending exactly at `range.start` passes through
unchanged before the wrapper, and (i') a node starting at or past
`range.end` passes through unchanged after it, provided the nodes the
range actually spans are string-like; (ii) two adjacent ranges `[a,b)` and
`[b,c)` applied in ascending order to a single string leaf produce two
separate WrapperNodes, each with its own MessageNode, covering
`sourceText[a:b]` and `sourceText[b:c]`. -/
theorem c5_boundary_amended :
    (∀ (pre rest : List PToken) (r : Int × Int) (m : List Char),
        (∀ t ∈ pre, t ≠ PToken.str []) →
        ((getListContent pre).length : Int) ≤ r.1 →
        convertMarked (pre ++ rest) r m 0 =
          pre ++ convertMarked rest r m ((getListContent pre).length : Int)) ∧
    (∀ (pre : List PToken) (s : List Char) (mid : List PToken) (n : PToken)
        (tail : List PToken) (r : Int × Int) (m : List Char),
        (∀ t ∈ pre, t ≠ PToken.str []) →
        ((getListContent pre).length : Int) ≤ r.1 →
        s ≠ [] →
        r.1 < (getListContent pre).length + (s.length : Int) →
        (∀ t ∈ mid, stringLike t = true) →
        r.2 ≤ ((getListContent pre).length : Int) + s.length +
          (getListContent mid).length →
        ∃ mid2,
          convertMarked (pre ++ PToken.str s :: (mid ++ n :: tail)) r m 0 =
            pre ++ (mid2 ++ n :: tail)) ∧
    (∀ (s : List Char) (a b c : Nat) (m1 m2 : List Char),
        a < b → b < c → c ≤ s.length →
        convertMarked
            (convertMarked [PToken.str s] ((a : Int), (b : Int)) m1 0)
            ((b : Int), (c : Int)) m2 0 =
          (if 0 < a then [PToken.str (s.take a)] else []) ++
            PToken.tokl "eslint-marked"
              [PToken.str ((s.take b).drop a),
                PToken.toks "eslint-message" m1 ["alert"] 0]
              (if (s.take b).drop a = ['\n'] ∧ a + 1 = b then
                ["eslint-marked-line-feed"] else []) 0 ::
            PToken.tokl "eslint-marked"
              [PToken.str ((s.take c).drop b),
                PToken.toks "eslint-message" m2 ["alert"] 0]
              (if (s.take c).drop b = ['\n'] ∧ b + 1 = c then
                ["eslint-marked-line-feed"] else []) 0 ::
            (if c < s.length then [PToken.str (s.drop c)] else [])) := by
  refine ⟨?_, convertMarked_tail_preserved, two_adjacent_ranges_leaf⟩
  intro pre rest r m h1 h2
  have h := convertMarked_passes_front pre rest r m 0 h1 (by omega)
  simpa using h

/-- C5 witness: the amended theorem applied at concrete inputs — a prefix
leaf passing through, a suffix node surviving a spanning range, and the
spec's example 5 (two adjacent ranges on the leaf `"abcd"`). -/
theorem c5_boundary_amended_witness :
    convertMarked ([PToken.str ['x']] ++ [PToken.str ['y']]) (1, 2) ['w'] 0 =
      [PToken.str ['x']] ++ convertMarked [PToken.str ['y']] (1, 2) ['w']
        ((getListContent [PToken.str ['x']]).length : Int) ∧
    (∃ mid2,
      convertMarked ([] ++ PToken.str ['p', 'q'] ::
          ([] ++ PToken.str ['r'] :: [])) (0, 2) ['w'] 0 =
        [] ++ (mid2 ++ PToken.str ['r'] :: [])) ∧
    convertMarked
        (convertMarked [PToken.str ['a', 'b', 'c', 'd']] (0, 2) ['1'] 0)
        (2, 4) ['2'] 0 =
      [PToken.tokl "eslint-marked"
          [PToken.str ['a', 'b'], PToken.toks "eslint-message" ['1'] ["alert"] 0]
          [] 0,
        PToken.tokl "eslint-marked"
          [PToken.str ['c', 'd'], PToken.toks "eslint-message" ['2'] ["alert"] 0]
          [] 0] := by
  refine ⟨?_, ?_, ?_⟩
  · exact c5_boundary_amended.1 [PToken.str ['x']] [PToken.str ['y']] (1, 2)
      ['w'] (by intro t ht; simp at ht; subst ht; simp)
      (by norm_num [getListContent, getTokenContent])
  · exact c5_boundary_amended.2.1 [] ['p', 'q'] [] (PToken.str ['r']) []
      (0, 2) ['w'] (by simp) (by norm_num [getListContent])
      (by simp) (by norm_num [getListContent]) (by simp)
      (by norm_num [getListContent, getTokenContent])
  · have h := c5_boundary_amended.2.2 ['a', 'b', 'c', 'd'] 0 2 4 ['1'] ['2']
      (by omega) (by omega) (by norm_num)
    simpa using h

/-- `countNodesList` distributes over append. -/
theorem countNodesList_append (f : String → List String → Bool)
    (a b : List PToken) :
    countNodesList f (a ++ b) = countNodesList f a + countNodesList f b := by
  induction a with
  | nil => simp [countNodesList]
  | cons t a ih => simp [countNodesList, ih]; omega

/-- A clean token list contains no wrapper nodes and no tagged nodes. -/
theorem clean_counts_zero :
    ∀ (nn : Nat) (ts : List PToken), sizeOf ts ≤ nn → cleanList ts = true →
      countNodesList isMarkedTok ts = 0 ∧ countNodesList isTaggedTok ts = 0 := by
  intro nn
  induction nn with
  | zero =>
    intro ts h hc
    cases ts with
    | nil => simp [countNodesList]
    | cons t rest =>
      exfalso
      have hs : sizeOf (t :: rest) = 1 + sizeOf t + sizeOf rest := by
        simp
      omega
  | succ nn ih =>
    intro ts h hc
    cases ts with
    | nil => simp [countNodesList]
    | cons t rest =>
      have hs : sizeOf (t :: rest) = 1 + sizeOf t + sizeOf rest := by simp
      obtain ⟨hct, hcr⟩ : cleanTok t = true ∧ cleanList rest = true := by
        simpa [cleanList, Bool.and_eq_true] using hc
      have hrest := ih rest (by omega) hcr
      cases t with
      | str s =>
        simp [countNodesList, countNodes, hrest.1, hrest.2]
      | toks ty sc al len =>
        obtain ⟨hty, hal⟩ : ty ≠ "eslint-marked" ∧
            al.contains "eslint-marked-line-feed" = false := by
          simpa [cleanTok, Bool.and_eq_true, bne_iff_ne] using hct
        have hal2 : "eslint-marked-line-feed" ∉ al := by simpa using hal
        constructor
        · simp [countNodesList, countNodes, isMarkedTok, hty, hrest.1]
        · simp [countNodesList, countNodes, isTaggedTok, hal2, hrest.2]
      | tokl ty inner al len =>
        obtain ⟨hty, hal, hin⟩ : ty ≠ "eslint-marked" ∧
            al.contains "eslint-marked-line-feed" = false ∧
            cleanList inner = true := by
          simpa [cleanTok, Bool.and_eq_true, bne_iff_ne, and_assoc] using hct
        have hsz : sizeOf (PToken.tokl ty inner al len) =
            1 + sizeOf ty + sizeOf inner + sizeOf al + sizeOf len := by simp
        have hinner := ih inner (by omega) hin
        have hal2 : "eslint-marked-line-feed" ∉ al := by simpa using hal
        constructor
        · simp [countNodesList, countNodes, isMarkedTok, hty, hrest.1,
            hinner.1]
        · simp [countNodesList, countNodes, isTaggedTok, hal2, hrest.2,
            hinner.2]

/-- Single-token version of `clean_counts_zero`. -/
theorem clean_tok_counts_zero (t : PToken) (h : cleanTok t = true) :
    countNodes isMarkedTok t = 0 ∧ countNodes isTaggedTok t = 0 := by
  have h2 := clean_counts_zero (sizeOf ([t] : List PToken)) [t] le_rfl
    (by simp [cleanList, h])
  simpa [countNodesList] using h2

/-- A clean token is not the empty string leaf. -/
theorem clean_falsyTok {t : PToken} (h : cleanTok t = true) :
    falsyTok t = false := by
  cases t with
  | str s =>
    cases s with
    | nil => simp [cleanTok] at h
    | cons c cs => rfl
  | toks ty sc al len => rfl
  | tokl ty inner al len => rfl

/-- A one-character `jsSlice` yields the character at that position. -/
theorem jsSlice_singleton (s : List Char) (k : Nat) (h : k < s.length) :
    jsSlice s (k : Int) ((k + 1 : Nat) : Int) = [s.getD k 'a'] := by
  rw [jsSlice_natCast]
  have ht : s.take (k + 1) = s.take k ++ [s.getD k 'a'] := by
    rw [List.take_succ]
    congr 1
    rw [List.getElem?_eq_getElem h]
    simp [List.getD, List.getElem?_eq_getElem h]
  rw [ht]
  have hd := List.drop_left (s.take k) [s.getD k 'a']
  rw [List.length_take, min_eq_left (by omega)] at hd
  exact hd

/-- Node counts of the pieces produced by `splitStringLike` for a
length-one range `[start+k, start+k+1)` hitting position `k` of the token:
the wrapper is the only new wrapper node and it is tagged exactly when the
wrapped character is a line feed; the before/after fragments contribute no
wrapper or tagged nodes as long as `build` does not. -/
theorem splitStringLike_len1_counts (build : List Char → PToken)
    (token : PToken) (start : Int) (k : Nat) (m : List Char)
    (hb1 : ∀ x, countNodes isMarkedTok (build x) = 0)
    (hb2 : ∀ x, countNodes isTaggedTok (build x) = 0)
    (hk : k < (getTokenContent token).length) :
    countNodes isMarkedTok
        (splitStringLike build token
          (start + (k : Int), start + (k : Int) + 1) m start).marked = 1 ∧
    countNodes isTaggedTok
        (splitStringLike build token
          (start + (k : Int), start + (k : Int) + 1) m start).marked =
      (if (getTokenContent token).getD k 'a' = '\n' then 1 else 0) ∧
    countNodesList isMarkedTok
        (splitStringLike build token
          (start + (k : Int), start + (k : Int) + 1) m start).before.toList
      = 0 ∧
    countNodesList isTaggedTok
        (splitStringLike build token
          (start + (k : Int), start + (k : Int) + 1) m start).before.toList
      = 0 ∧
    countNodesList isMarkedTok
        (splitStringLike build token
          (start + (k : Int), start + (k : Int) + 1) m start).after.toList
      = 0 ∧
    countNodesList isTaggedTok
        (splitStringLike build token
          (start + (k : Int), start + (k : Int) + 1) m start).after.toList
      = 0 := by
  have e1 : (if start < start + (k : Int) then start + (k : Int) - start
      else 0) = (k : Int) := by
    split <;> omega
  have e2 : start + (k : Int) + 1 - start = ((k + 1 : Nat) : Int) := by
    push_cast
    ring
  simp only [splitStringLike, e1, e2, jsSlice_singleton _ _ hk]
  refine ⟨?_, ?_, ?_, ?_, ?_, ?_⟩
  · simp [countNodes, countNodesList, isMarkedTok, hb1]
  · simp only [countNodes, countNodesList, isTaggedTok, hb2]
    have hmsg : countNodes isTaggedTok
        (PToken.toks "eslint-message" m ["alert"] 0) = 0 := by
      simp [countNodes, isTaggedTok]
    simp only [List.cons.injEq, and_true, show (start + (k : Int) + 1 =
      start + (k : Int) + 1) ↔ True from by simp]
    by_cases hnl : (getTokenContent token).getD k 'a' = '\n'
    · simp [hnl, countNodes, countNodesList, isTaggedTok, hb2]
    · simp [hnl, countNodes, countNodesList, isTaggedTok, hb2]
  · split <;> simp [countNodesList, hb1]
  · split <;> simp [countNodesList, hb2]
  · split <;> simp [countNodesList, hb1]
  · split <;> simp [countNodesList, hb2]

/-- Core of the line-feed-tagging property: applying a length-one range at
in-bounds position `k` of a clean token list produces exactly one wrapper
node, and exactly one tagged node precisely when the character at `k` is a
line feed. -/
theorem convert_len1_aux :
    ∀ (nn : Nat) (ts : List PToken) (start : Int) (k : Nat) (m : List Char),
      sizeOf ts ≤ nn → cleanList ts = true →
      k < (getListContent ts).length →
      countNodesList isMarkedTok
          (convertMarked ts (start + (k : Int), start + (k : Int) + 1) m start)
        = 1 ∧
      countNodesList isTaggedTok
          (convertMarked ts (start + (k : Int), start + (k : Int) + 1) m start)
        = (if (getListContent ts).getD k 'a' = '\n' then 1 else 0) := by
  intro nn
  induction nn with
  | zero =>
    intro ts start k m h hc hk
    cases ts with
    | nil => simp [getListContent] at hk
    | cons t rest =>
      exfalso
      have hs : sizeOf (t :: rest) = 1 + sizeOf t + sizeOf rest := by simp
      omega
  | succ nn ih =>
    intro ts start k m h hc hk
    cases ts with
    | nil => simp [getListContent] at hk
    | cons t rest =>
      have hs : sizeOf (t :: rest) = 1 + sizeOf t + sizeOf rest := by simp
      obtain ⟨hct, hcr⟩ : cleanTok t = true ∧ cleanList rest = true := by
        simpa [cleanList, Bool.and_eq_true] using hc
      have hft := clean_falsyTok hct
      have hflat : getListContent (t :: rest) =
          getTokenContent t ++ getListContent rest := by simp [getListContent]
      by_cases hpass : (getTokenContent t).length ≤ k
      · -- the cursor has not yet reached position k: pass-through
        have hcond : getTokenContent t = [] ∨
            start + ((getTokenContent t).length : Int) ≤
              ((start + (k : Int), start + (k : Int) + 1) : Int × Int).1 :=
          Or.inr (show start + ((getTokenContent t).length : Int) ≤
            start + (k : Int) by omega)
        rw [convertMarked_cons_pass t rest _ m start hft hcond]
        have hr : ((start + (k : Int), start + (k : Int) + 1) : Int × Int) =
            ((start + ((getTokenContent t).length : Int)) +
                ((k - (getTokenContent t).length : Nat) : Int),
              (start + ((getTokenContent t).length : Int)) +
                ((k - (getTokenContent t).length : Nat) : Int) + 1) := by
          simp only [Prod.mk.injEq]
          constructor <;> omega
        rw [hr]
        have hk2 : (k - (getTokenContent t).length : Nat) <
            (getListContent rest).length := by
          rw [hflat, List.length_append] at hk
          omega
        obtain ⟨ih1, ih2⟩ :=
          ih rest (start + ((getTokenContent t).length : Int))
            (k - (getTokenContent t).length) m (by omega) hcr hk2
        obtain ⟨hz1, hz2⟩ := clean_tok_counts_zero t hct
        have hgd : (getListContent (t :: rest)).getD k 'a' =
            (getListContent rest).getD (k - (getTokenContent t).length) 'a' := by
          rw [hflat]
          exact List.getD_append_right _ _ _ _ hpass
        constructor
        · simp [countNodesList, hz1, ih1]
        · rw [hgd]
          simp [countNodesList, hz2, ih2]
      · -- entry: position k lies inside this token
        push_neg at hpass
        obtain ⟨hr1, hr2⟩ := clean_counts_zero (sizeOf rest) rest le_rfl hcr
        have hcond : ¬(getTokenContent t = [] ∨
            start + ((getTokenContent t).length : Int) ≤
              ((start + (k : Int), start + (k : Int) + 1) : Int × Int).1) := by
          push_neg
          constructor
          · intro hcontra
            rw [hcontra] at hpass
            simp at hpass
          · show start + (k : Int) <
              start + ((getTokenContent t).length : Int)
            omega
        rw [convertMarked_cons_entry t rest _ m start hft hcond]
        rw [mergeLoop_stop _ _ _ _ _ _
          (show start + (k : Int) + 1 ≤
            start + ((getTokenContent t).length : Int) by omega)]
        have hgd : (getListContent (t :: rest)).getD k 'a' =
            (getTokenContent t).getD k 'a' := by
          rw [hflat]
          exact List.getD_append _ _ _ _ hpass
        rw [hgd]
        cases t with
        | str s =>
          have hsp : splitToken (PToken.str s)
              (start + (k : Int), start + (k : Int) + 1) m start =
              splitStringLike (.str) (PToken.str s)
                (start + (k : Int), start + (k : Int) + 1) m start := by
            rw [splitToken]
          rw [hsp]
          obtain ⟨m1, m2, m3, m4, m5, m6⟩ :=
            splitStringLike_len1_counts (.str) (PToken.str s) start k m
              (fun x => rfl) (fun x => rfl) hpass
          constructor
          · simp [countNodesList_append, countNodesList, m1, m3, m5, hr1]
          · simp [countNodesList_append, countNodesList, m2, m4, m6, hr2]
        | toks ty sc al len =>
          obtain ⟨hty, hal⟩ : ty ≠ "eslint-marked" ∧
              al.contains "eslint-marked-line-feed" = false := by
            simpa [cleanTok, Bool.and_eq_true, bne_iff_ne] using hct
          have hsp : splitToken (PToken.toks ty sc al len)
              (start + (k : Int), start + (k : Int) + 1) m start =
              splitStringLike (fun nc => .toks ty nc al 0)
                (PToken.toks ty sc al len)
                (start + (k : Int), start + (k : Int) + 1) m start := by
            rw [splitToken]
          rw [hsp]
          obtain ⟨m1, m2, m3, m4, m5, m6⟩ :=
            splitStringLike_len1_counts (fun nc => .toks ty nc al 0)
              (PToken.toks ty sc al len) start k m
              (fun x => by simp [countNodes, isMarkedTok, hty])
              (fun x => by
                have hal2 : "eslint-marked-line-feed" ∉ al := by
                  simpa using hal
                simp [countNodes, isTaggedTok, hal2])
              hpass
          constructor
          · simp [countNodesList_append, countNodesList, m1, m3, m5, hr1]
          · simp [countNodesList_append, countNodesList, m2, m4, m6, hr2]
        | tokl ty inner al len =>
          obtain ⟨hty, hal, hin⟩ : ty ≠ "eslint-marked" ∧
              al.contains "eslint-marked-line-feed" = false ∧
              cleanList inner = true := by
            simpa [cleanTok, Bool.and_eq_true, bne_iff_ne, and_assoc]
              using hct
          have hmsg : ty ≠ "eslint-message" := by
            intro hcontra
            have : getTokenContent (PToken.tokl ty inner al len) = [] := by
              simp [getTokenContent, hcontra]
            rw [this] at hpass
            simp at hpass
          have hconteq : getTokenContent (PToken.tokl ty inner al len) =
              getListContent inner := by
            simp [getTokenContent, hmsg]
          have hsz : sizeOf (PToken.tokl ty inner al len) =
              1 + sizeOf ty + sizeOf inner + sizeOf al + sizeOf len := by simp
          obtain ⟨ih1, ih2⟩ := ih inner start k m (by omega) hin
            (by rw [hconteq] at hpass; exact hpass)
          rw [hconteq]
          have hsp : splitToken (PToken.tokl ty inner al len)
              (start + (k : Int), start + (k : Int) + 1) m start =
              ⟨none, .tokl ty (convertMarked inner
                  (start + (k : Int), start + (k : Int) + 1) m start) al len,
                none⟩ := by
            rw [splitToken]
          rw [hsp]
          have hal2 : "eslint-marked-line-feed" ∉ al := by simpa using hal
          constructor
          · simp [countNodesList_append, countNodesList, countNodes,
              isMarkedTok, hty, ih1, hr1]
          · simp [countNodesList_append, countNodesList, countNodes,
              isTaggedTok, hal2, ih2, hr2]

/-- C6 counterexample: (a) a length-1 range over `'\r'` — a line-break
character by the file's own line scanner (`computeLineStarts` treats it as
a break) — produces an untagged wrapper, because line 165 compares the
mark against `"\n"` only; (b) without the cleanliness restriction the
"no tag on non-line-break" half fails: a token whose alias already carries
`eslint-marked-line-feed` propagates the tag onto the fragment wrapping a
plain `'x'`. -/
theorem c6_cex_carriage_return_and_alias :
    countNodesList isTaggedTok
        (convertMarked [PToken.str ['\r']] (0, 1) ['M'] 0) = 0 ∧
    computeLineStarts ['\r', 'x'] = [0, 1] ∧
    countNodesList isTaggedTok
        (convertMarked [PToken.toks "q" ['x'] ["eslint-marked-line-feed"] 1]
          (0, 1) ['M'] 0) = 1 := by
  refine ⟨?_, ?_, ?_⟩ <;>
    simp [convertMarked, splitToken, splitStringLike, mergeLoop, falsyTok,
      getTokenContent, getListContent, jsSlice, tokenLength, countNodes,
      countNodesList, isTaggedTok, computeLineStarts, lineBreakEnds,
      isLineBreakChar]

/-- C6 (amended): on a clean tree (no empty-string leaves and none of the
hook's reserved type/tag already present), a length-1 range at in-bounds
position `k` produces exactly one WrapperNode, and the output carries the
`eslint-marked-line-feed` tag exactly once when the wrapped character is
the line feed `'\n'` and not at all for any other character (including
other line-break characters such as `'\r'`). -/
theorem c6_linefeed_amended (ts : List PToken) (k : Nat) (m : List Char)
    (hc : cleanList ts = true) (hk : k < (getListContent ts).length) :
    countNodesList isMarkedTok
        (convertMarked ts ((k : Int), (k : Int) + 1) m 0) = 1 ∧
    countNodesList isTaggedTok
        (convertMarked ts ((k : Int), (k : Int) + 1) m 0) =
      (if (getListContent ts).getD k 'a' = '\n' then 1 else 0) := by
  have h := convert_len1_aux (sizeOf ts) ts 0 k m le_rfl hc hk
  simpa using h

/-- C6 witness: the amended theorem at the clean tree `["\nx"]` with the
length-1 range at position 0 (a line feed: one wrapper, one tag). -/
theorem c6_linefeed_amended_witness :
    countNodesList isMarkedTok
        (convertMarked [PToken.str ['\n', 'x']]
          (((0 : Nat) : Int), ((0 : Nat) : Int) + 1) ['M'] 0) = 1 ∧
    countNodesList isTaggedTok
        (convertMarked [PToken.str ['\n', 'x']]
          (((0 : Nat) : Int), ((0 : Nat) : Int) + 1) ['M'] 0) =
      (if (getListContent [PToken.str ['\n', 'x']]).getD 0 'a' = '\n'
        then 1 else 0) :=
  c6_linefeed_amended [PToken.str ['\n', 'x']] 0 ['M']
    (by simp [cleanList, cleanTok])
    (by simp [getListContent, getTokenContent])

/-- C1: the claim says that for every tree reconstituting the source text
and every sorted, non-crossing range sequence, the transformed tree still
flattens to the source text.  The code violates this: on the tree
`[Token("x", ["abc"]), "def"]` (flattening to `"abcdef"`) the single range
`[1,5)` produces a tree flattening to `"adef"` — the characters `bc` are
lost, because the merge loop pops the nested wrapper out of the composite
entry token (lines 206-220 assume `result.marked` is an `eslint-marked`
token, but the composite branch of `splitToken`, line 149, returns the
composite itself). -/
theorem c1_reconstitution_violated :
    getListContent
        [PToken.tokl "x" [PToken.str ['a', 'b', 'c']] [] 3,
          PToken.str ['d', 'e', 'f']] = ['a', 'b', 'c', 'd', 'e', 'f'] ∧
    getListContent
        (convertMarked
          [PToken.tokl "x" [PToken.str ['a', 'b', 'c']] [] 3,
            PToken.str ['d', 'e', 'f']] (1, 5) ['M'] 0) =
      ['a', 'd', 'e', 'f'] := by
  constructor <;>
    simp [convertMarked, splitToken, splitStringLike, mergeLoop,
      popLastContent, pushContentOf, contentListOf, falsyTok,
      getTokenContent, getListContent, jsSlice, tokenLength]

/-- C2: the claim says one applied range always yields exactly one
WrapperNode and one MessageNode, even when the range spans a Composite
with a nested node sequence.  On `[Token("x", ["ab"]), "cd"]` with range
`[1,3)` the output contains no `eslint-marked` node at all (the nested
wrapper is popped away by the merge loop) and one floating message node. -/
theorem c2_single_wrapper_violated :
    countNodesList isMarkedTok
        (convertMarked
          [PToken.tokl "x" [PToken.str ['a', 'b']] [] 2,
            PToken.str ['c', 'd']] (1, 3) ['M'] 0) = 0 ∧
    countNodesList isMessageTok
        (convertMarked
          [PToken.tokl "x" [PToken.str ['a', 'b']] [] 2,
            PToken.str ['c', 'd']] (1, 3) ['M'] 0) = 1 := by
  constructor <;>
    simp [convertMarked, splitToken, splitStringLike, mergeLoop,
      popLastContent, pushContentOf, contentListOf, falsyTok,
      getTokenContent, getListContent, jsSlice, tokenLength,
      countNodes, countNodesList, isMarkedTok, isMessageTok]

/-- C3: the claim says that after applying an in-bounds range `[s,e)` the
WrapperNode flattens to `sourceText[s:e]` and the surrounding output
reassembles the source.  On `[Token("k", ["abc"]), "d"]` (source `"abcd"`)
with range `[2,4)` the output contains no WrapperNode and flattens to
`"abd"`: the in-range character `c` is dropped instead of appearing in a
wrapper. -/
theorem c3_boundary_exactness_violated :
    getListContent
        [PToken.tokl "k" [PToken.str ['a', 'b', 'c']] [] 3, PToken.str ['d']] =
      ['a', 'b', 'c', 'd'] ∧
    countNodesList isMarkedTok
        (convertMarked
          [PToken.tokl "k" [PToken.str ['a', 'b', 'c']] [] 3,
            PToken.str ['d']] (2, 4) ['M'] 0) = 0 ∧
    getListContent
        (convertMarked
          [PToken.tokl "k" [PToken.str ['a', 'b', 'c']] [] 3,
            PToken.str ['d']] (2, 4) ['M'] 0) = ['a', 'b', 'd'] := by
  refine ⟨?_, ?_, ?_⟩ <;>
    simp [convertMarked, splitToken, splitStringLike, mergeLoop,
      popLastContent, pushContentOf, contentListOf, falsyTok,
      getTokenContent, getListContent, jsSlice, tokenLength,
      countNodes, countNodesList, isMarkedTok]

/-- C4 counterexample: the claim quantifies over every tree, but on the
tree `["", "ab"]` the out-of-bounds range `[9,10)` is not a no-op — the
falsy empty-string leaf stops the walk (line 190) and the whole stream is
dropped. -/
theorem c4_cex_empty_leaf_not_noop :
    ((getListContent [PToken.str [], PToken.str ['a', 'b']]).length : Int) ≤ 9 ∧
    convertMarked [PToken.str [], PToken.str ['a', 'b']] (9, 10) ['M'] 0 ≠
      [PToken.str [], PToken.str ['a', 'b']] := by
  constructor
  · simp [getListContent, getTokenContent]
  · simp [convertMarked, falsyTok]

/-- C4 (amended): for every tree whose top-level sequence contains no
empty-string leaf, a range starting at or past the tree's total flattened
length (including the empty tree) leaves the tree unchanged. -/
theorem c4_noop_amended (ts : List PToken) (r : Int × Int) (m : List Char)
    (h1 : ∀ t ∈ ts, t ≠ PToken.str [])
    (h2 : ((getListContent ts).length : Int) ≤ r.1) :
    convertMarked ts r m 0 = ts := by
  have h := convertMarked_passes_front ts [] r m 0 h1 (by simpa using h2)
  simpa [convertMarked_nil] using h

/-- C4 witness: the amended no-op theorem at the concrete tree `["ab"]`
with range `[5,9)`. -/
theorem c4_noop_amended_witness :
    convertMarked [PToken.str ['a', 'b']] (5, 9) ['M'] 0 =
      [PToken.str ['a', 'b']] :=
  c4_noop_amended [PToken.str ['a', 'b']] (5, 9) ['M']
    (by intro t ht; simp at ht; subst ht; simp)
    (by norm_num [getListContent, getTokenContent])

/-- C8: when the registered content is tokenized, a lint result containing
any fatal message makes the hook return with the token stream untouched
(lines 87-91) — no range ever reaches `convertMarked`; with no fatal
message, `messageRanges` turns every reported message into exactly one
range and each is applied in order (lines 92-110, 232-234). -/
theorem c8_fatal_guard (st : HookState) (code : List Char)
    (toks : List PToken) (msgs : List LintMessage)
    (hreg : st.contentMustBeMarked = some code) :
    (msgs.any (·.fatal) = true →
      (afterTokenize st code toks msgs).2 = toks) ∧
    (msgs.any (·.fatal) = false →
      (afterTokenize st code toks msgs).2 =
        (messageRanges code msgs).foldl
          (fun tk pr => convertMarked tk pr.2 pr.1 0) toks ∧
      (messageRanges code msgs).length = msgs.length) := by
  constructor
  · intro hf
    simp [afterTokenize, hreg, hf]
  · intro hf
    refine ⟨?_, ?_⟩
    · simp [afterTokenize, hreg, hf]
    · simp [messageRanges]

/-- C8 witness: a fatal singleton message list leaves the stream unchanged,
and a non-fatal singleton yields exactly one range. -/
theorem c8_fatal_guard_witness :
    (afterTokenize ⟨some ['a'], none⟩ ['a'] [PToken.str ['a']]
        [⟨['m'], 1, 1, none, true⟩]).2 = [PToken.str ['a']] ∧
    (messageRanges ['a'] [⟨['m'], 1, 1, none, false⟩]).length = 1 := by
  constructor
  · exact (c8_fatal_guard ⟨some ['a'], none⟩ ['a'] [PToken.str ['a']]
      [⟨['m'], 1, 1, none, true⟩] rfl).1 (by simp [List.any])
  · exact ((c8_fatal_guard ⟨some ['a'], none⟩ ['a'] [PToken.str ['a']]
      [⟨['m'], 1, 1, none, false⟩] rfl).2 (by simp [List.any])).2

/-- C10: the hook touches `env.tokens` only when `env.code` is string-equal
to the registered content (lines 42-46); the registration is cleared before
any processing (line 47), so with the registration cleared — in particular
right after a matched run — any further tokenization is returned
unchanged until `addContentMustBeMarked` is called again. -/
theorem c10_registration_gate :
    (∀ (st : HookState) (code : List Char) (toks : List PToken)
        (msgs : List LintMessage),
        st.contentMustBeMarked ≠ some code →
        afterTokenize st code toks msgs = (st, toks)) ∧
    (∀ (code : List Char) (opts : ParserOptions) (toks : List PToken)
        (msgs : List LintMessage),
        (afterTokenize (addContentMustBeMarked code opts) code toks
            msgs).1.contentMustBeMarked = none) ∧
    (∀ (st1 : HookState) (code2 : List Char) (toks2 : List PToken)
        (msgs2 : List LintMessage),
        st1.contentMustBeMarked = none →
        afterTokenize st1 code2 toks2 msgs2 = (st1, toks2)) := by
  refine ⟨?_, ?_, ?_⟩
  · intro st code toks msgs hne
    simp [afterTokenize, hne]
  · intro code opts toks msgs
    by_cases hf : msgs.any (·.fatal) = true
    · simp [afterTokenize, addContentMustBeMarked, hf]
    · simp [afterTokenize, addContentMustBeMarked, hf]
  · intro st1 code2 toks2 msgs2 hnone
    have hne : st1.contentMustBeMarked ≠ some code2 := by
      rw [hnone]
      simp
    simp [afterTokenize, hne]

/-- C10 witness: an unregistered tokenization is a no-op, and a matched run
clears the registration. -/
theorem c10_registration_gate_witness :
    afterTokenize ⟨none, none⟩ ['a'] [PToken.str ['a']] [] =
      (⟨none, none⟩, [PToken.str ['a']]) ∧
    (afterTokenize (addContentMustBeMarked ['a'] []) ['a'] []
        []).1.contentMustBeMarked = none := by
  constructor
  · exact c10_registration_gate.1 ⟨none, none⟩ ['a'] [PToken.str ['a']] []
      (by simp)
  · exact c10_registration_gate.2.1 ['a'] [] [] []

/-- C7: the claim says an empty-string leaf is passed through and all later
nodes are still processed.  In the code, `while ((token = buffer.shift()))`
(line 190) stops on the falsy empty string, so on the tree `["", "ab"]`
with range `[0,1)` the entire output is empty: the empty leaf and every
node after it are dropped. -/
theorem c7_empty_leaf_drops_rest :
    convertMarked [PToken.str [], PToken.str ['a', 'b']] (0, 1) ['M'] 0
      = [] := by
  simp [convertMarked, falsyTok]
